import Mathlib

/-!
Verification of the SHOOT tree algorithms (`split_large_tree.py` and
`shoot/__main__.py`) against their natural-language specification.

The tree model is a shallow embedding of the ete3 rooted tree: a node has a
name, a branch length (`dist`, distance to its parent) and an ordered list of
children.  `len(node)` in ete3 is the number of leaves below the node and
iterating a node iterates its leaves; both are modelled faithfully below.
Branch lengths are embedded as rationals.
-/

namespace Shoot

/-- ete3 `TreeNode`: a name, a branch length to the parent, ordered children.
A node with no children is a leaf. -/
inductive ETree : Type where
  | node (name : String) (dist : ℚ) (children : List ETree) : ETree
deriving Repr

def ETree.name : ETree → String
  | .node nm _ _ => nm

def ETree.dist : ETree → ℚ
  | .node _ d _ => d

def ETree.children : ETree → List ETree
  | .node _ _ ch => ch

def ETree.isLeafNode : ETree → Bool
  | .node _ _ ch => ch.isEmpty

/-- Strong induction over the nested tree type: to prove a property of every
tree it suffices to prove it for a node assuming it for every child. -/
theorem ETree.strongInd {P : ETree → Prop}
    (h : ∀ nm d ch, (∀ c ∈ ch, P c) → P (.node nm d ch)) : ∀ t, P t := by
  have key : ∀ k : ℕ, ∀ t : ETree, sizeOf t ≤ k → P t := by
    intro k
    induction k with
    | zero =>
      intro t ht
      obtain ⟨nm, d, ch⟩ := t
      simp [ETree.node.sizeOf_spec] at ht
    | succ k ih =>
      intro t ht
      obtain ⟨nm, d, ch⟩ := t
      refine h nm d ch (fun c hc => ih c ?_)
      have h1 : sizeOf c < sizeOf ch := List.sizeOf_lt_of_mem hc
      have h2 : sizeOf (ETree.node nm d ch) = 1 + sizeOf nm + sizeOf d + sizeOf ch := by
        simp [ETree.node.sizeOf_spec]
      omega
  exact fun t => key (sizeOf t) t le_rfl

mutual
/-- Structure-level boolean equality of trees (used only to furnish a
decidable equality instance for the tree type). -/
def ETree.beqTree : ETree → ETree → Bool
  | .node n1 d1 c1, .node n2 d2 c2 =>
    decide (n1 = n2) && decide (d1 = d2) && ETree.beqForest c1 c2

def ETree.beqForest : List ETree → List ETree → Bool
  | [], [] => true
  | a :: as, b :: bs => ETree.beqTree a b && ETree.beqForest as bs
  | _, _ => false
end

lemma ETree.beqForest_iff {l1 : List ETree}
    (h : ∀ a ∈ l1, ∀ b, ETree.beqTree a b = true ↔ a = b) :
    ∀ l2, ETree.beqForest l1 l2 = true ↔ l1 = l2 := by
  induction l1 with
  | nil =>
    intro l2
    cases l2 <;> simp [ETree.beqForest]
  | cons a as ih =>
    intro l2
    cases l2 with
    | nil => simp [ETree.beqForest]
    | cons b bs =>
      have ha := h a (by simp) b
      have hih := ih (fun x hx => h x (by simp [hx])) bs
      simp [ETree.beqForest, ha, hih]

lemma ETree.beqTree_iff : ∀ a b : ETree, ETree.beqTree a b = true ↔ a = b := by
  refine ETree.strongInd (fun nm d ch ih b => ?_)
  obtain ⟨nm2, d2, ch2⟩ := b
  have := ETree.beqForest_iff ih ch2
  simp [ETree.beqTree, this]
  tauto

instance : DecidableEq ETree := fun a b => decidable_of_iff _ (ETree.beqTree_iff a b)

mutual
/-- `node.get_leaf_names()`: names of the leaves below the node, left to
right; a childless node is its own single leaf. -/
def leafNames : ETree → List String
  | .node nm _ [] => [nm]
  | .node _ _ (c :: cs) => leafNames c ++ forestLeafNames cs

def forestLeafNames : List ETree → List String
  | [] => []
  | c :: cs => leafNames c ++ forestLeafNames cs
end

/-- ete3 `len(node)`: the number of leaves below the node. -/
def leafCount (t : ETree) : ℕ := (leafNames t).length

mutual
/-- The cut-boundary subtrees of the stopping preorder traversal
`t.traverse("preorder", is_leaf_fn = fun node => len(node) <= n_taxa)`
(`split_large_tree.py` lines 63-66): the first node on each root-to-leaf
path whose leaf count is at most `nTaxa`, in preorder (left-to-right)
order.  These are exactly the nodes for which the loop body of
`split_tree` executes its `l <= n_taxa` branch. -/
def boundaries (nTaxa : ℕ) : ETree → List ETree
  | .node nm d ch =>
    if leafCount (.node nm d ch) ≤ nTaxa then [ETree.node nm d ch]
    else boundariesF nTaxa ch

def boundariesF (nTaxa : ℕ) : List ETree → List ETree
  | [] => []
  | c :: cs => boundaries nTaxa c ++ boundariesF nTaxa cs
end

/-- Python `s.startswith(pre)`, modelled on the character list underlying
the string (`String.startsWith` itself is compiled against byte-level
primitives that the kernel cannot evaluate). -/
def hasPfx (pre s : String) : Bool := pre.data.isPrefixOf s.data

/-- Models the float literal `9e99` used at `split_large_tree.py` line 80 as
the gap count of a candidate whose name starts with `PART.` (a synthetic
partition leaf): an enormous sentinel value.  Real gap counts are bounded by
the alignment's sequence length, far below this. -/
def bigGapSentinel : ℕ := 9 * 10 ^ 99

/-- The entry of the `n_gaps` list for candidate gene `g`
(`split_large_tree.py` line 80): the sentinel for partition-named
candidates, otherwise the gene's gap count `d_ngaps[g]`.  `dngaps` models
the `d_ngaps` dictionary as a total map (leaf names of the tree are assumed
to be present in the alignment, spec section 6). -/
def gapWeight (dngaps : String → ℕ) (g : String) : ℕ :=
  if hasPfx "PART." g then bigGapSentinel else dngaps g

/-- Outgroup candidate selection (`split_large_tree.py` lines 79-83):
`x = min(n_gaps); i = n_gaps.index(x); outgrp = sister_genes[i]`.
Returns `none` exactly when `sister_genes` is empty (Python would raise
`ValueError` on `min([])`). -/
def pickOutgroup (dngaps : String → ℕ) : List String → Option String
  | [] => none
  | g0 :: gs =>
    let ws := (g0 :: gs).map (gapWeight dngaps)
    let x := (gs.map (gapWeight dngaps)).foldl min (gapWeight dngaps g0)
    (g0 :: gs)[ws.indexOf x]?

mutual
/-- Distance from a node down to the first (preorder) leaf below it named
`g`, not counting the node's own branch length; `none` if no such leaf. -/
def leafDepth (g : String) : ETree → Option ℚ
  | .node nm _ [] => if nm = g then some 0 else none
  | .node _ _ (c :: cs) => forestLeafDepth g (c :: cs)

/-- Distance from the (implicit) parent of the listed trees down to the
first leaf named `g` in them, counting each tree's own branch length. -/
def forestLeafDepth (g : String) : List ETree → Option ℚ
  | [] => none
  | c :: cs =>
    match leafDepth g c with
    | some r => some (c.dist + r)
    | none => forestLeafDepth g cs
end

/-- `d = n.get_distance(outgrp)` (`split_large_tree.py` line 84) for a
boundary node `n` whose sister subtrees are `sisters` and whose chosen
outgroup gene `g` lies under one of the sisters: the common ancestor of `n`
and the outgroup is `n`'s parent, so the patristic distance is `n.dist`
plus the path length from the parent down to the outgroup.  (ete3 resolves
the name `g` against the whole tree and raises on ambiguity; leaf names
are assumed unique, as in the SHOOT database trees.) -/
def patristicToSister (sisters : List ETree) (n : ETree) (g : String) : Option ℚ :=
  (forestLeafDepth g sisters).map (fun r => n.dist + r)

/-- Outgroup handling for one boundary node (`split_large_tree.py` lines
77-91): pick the sister gene with the fewest gaps, compute the patristic
distance `d`, check the `assert(d > n.dist)` and return the outgroup gene
together with the spliced branch length `d - n.dist` (the value written as
`SHOOTOUTGROUP_<outgrp>:<d - n.dist>`; the `%0.5f` decimal formatting of
the Newick serialization is not modelled).  An `assert` failure aborts the
whole decomposition, modelled by `Except.error`. -/
def processOutgroup (dngaps : String → ℕ) (sisters : List ETree) (n : ETree) :
    Except String (String × ℚ) :=
  match pickOutgroup dngaps (forestLeafNames sisters) with
  | none => .error "ValueError: min() arg is an empty sequence"
  | some outgrp =>
    match patristicToSister sisters n outgrp with
    | none => .error "TreeError: outgroup name not found"
    | some d =>
      if n.dist < d then .ok (outgrp, d - n.dist)
      else .error "AssertionError: not (d > n.dist)"

/-- The partition marker `"PART.%d-%d_genes" % (i_part, l)`
(`split_large_tree.py` line 98). -/
def partName (i l : ℕ) : String :=
  "PART." ++ toString i ++ "-" ++ toString l ++ "_genes"

/-- Everything `split_tree` records for one boundary subtree: the subtree's
own leaf gene names (`n.get_leaf_names()`), its leaf count `l`, the chosen
outgroup and spliced branch length (when `q_outgroup` is on), and the list
of sequence names passed to `fw.WriteSeqsToFasta` for the per-subtree
alignment file (`none` when no alignment file is written). -/
structure SubOut where
  genes : List String
  size : ℕ
  outgroup : Option (String × ℚ)
  msa : Option (List String)
deriving Repr, DecidableEq

mutual
/-- One step of the first traversal of `split_tree` (`split_large_tree.py`
lines 64-104) at a node with the given current sister list (its parent's
other children, left siblings already renamed) and next partition index.
At a boundary node (leaf count at most `nTaxa`): with `q_outgroup` off the
code evaluates `n.write(outfile)` where the local `outfile` has not been
assigned yet, raising `UnboundLocalError`; with it on, the outgroup is
processed, the subtree's gene names (and only those - the `translate`
dictionary built on lines 93-94 is never used) are written to the
alignment file, and the node is renamed to the partition marker.
Below a boundary nothing is visited; above, children are processed left to
right, each seeing the in-place renames already applied to its left
siblings.  Returns the renamed subtree, the recorded subtree outputs in
preorder, the next partition index, and the profile-count contribution. -/
def visitNode (dngaps : String → ℕ) (nTaxa : ℕ) (q : Bool) (sisters : List ETree)
    (iPart : ℕ) : ETree → Except String (ETree × List SubOut × ℕ × ℕ)
  | .node nm d ch =>
    let n := ETree.node nm d ch
    let l := leafCount n
    if l ≤ nTaxa then
      if q then
        match processOutgroup dngaps sisters n with
        | .error e => .error e
        | .ok (outgrp, spliced) =>
          .ok (ETree.node (partName iPart l) d ch,
               [⟨leafNames n, l, some (outgrp, spliced), some (leafNames n)⟩],
               iPart + 1, min 5 l)
      else
        .error "UnboundLocalError: local variable outfile referenced before assignment"
    else
      match visitChildren dngaps nTaxa q [] iPart ch with
      | .error e => .error e
      | .ok (ch', subs, ip', prof) => .ok (ETree.node nm d ch', subs, ip', prof)

/-- Processes the children of a non-boundary node left to right.  `done`
holds the already-processed (renamed) left siblings; the sisters of the
current child are `done ++ rest`, matching the in-place mutation order of
the Python traversal. -/
def visitChildren (dngaps : String → ℕ) (nTaxa : ℕ) (q : Bool) (done : List ETree)
    (iPart : ℕ) : List ETree → Except String (List ETree × List SubOut × ℕ × ℕ)
  | [] => .ok (done, [], iPart, 0)
  | c :: rest =>
    match visitNode dngaps nTaxa q (done ++ rest) iPart c with
    | .error e => .error e
    | .ok (c', subs₁, ip₁, prof₁) =>
      match visitChildren dngaps nTaxa q (done ++ [c']) ip₁ rest with
      | .error e => .error e
      | .ok (ch', subs₂, ip₂, prof₂) => .ok (ch', subs₁ ++ subs₂, ip₂, prof₁ + prof₂)
end

mutual
/-- Effect of the loop body `for ch in n: ch.detach()` at a `PART.`-named
internal node during the second traversal (`split_large_tree.py` lines
106-109).  Iterating an ete3 node iterates its *leaves*, so the loop
detaches every leaf below `n` (each removal happens after the preorder
generator has already queued the remaining nodes, so exactly the nodes
that were leaves at the start are removed): originally-internal
descendants remain, now childless. -/
def detachLeaves : ETree → ETree
  | .node nm d ch => .node nm d (detachLeavesF ch)

def detachLeavesF : List ETree → List ETree
  | [] => []
  | c :: cs =>
    if c.isLeafNode then detachLeavesF cs
    else detachLeaves c :: detachLeavesF cs
end

lemma sizeOf_detachLeavesF_le (h : ∀ c ∈ l, sizeOf (detachLeaves c) ≤ sizeOf c) :
    sizeOf (detachLeavesF l) ≤ sizeOf l := by
  induction l with
  | nil => simp [detachLeavesF]
  | cons c cs ih =>
    have hc := h c (by simp)
    have hcs := ih (fun x hx => h x (by simp [hx]))
    by_cases hl : c.isLeafNode
    · simp only [detachLeavesF, hl, if_pos, List.cons.sizeOf_spec]
      omega
    · simp only [detachLeavesF, hl, if_neg, List.cons.sizeOf_spec, Bool.false_eq_true,
        not_false_eq_true]
      omega

lemma sizeOf_detachLeaves_le : ∀ t : ETree, sizeOf (detachLeaves t) ≤ sizeOf t := by
  refine ETree.strongInd (fun nm d ch ih => ?_)
  have := sizeOf_detachLeavesF_le ih
  simp only [detachLeaves, ETree.node.sizeOf_spec]
  omega

lemma sizeOf_detachLeavesF_le' (l : List ETree) : sizeOf (detachLeavesF l) ≤ sizeOf l :=
  sizeOf_detachLeavesF_le (fun c _ => sizeOf_detachLeaves_le c)

mutual
/-- The second traversal of `split_tree` (`split_large_tree.py` lines
106-109), seen from one visited node: the loop body detaches every leaf
below the node if its name starts with `PART.` (see `detachLeaves`), then
the stopping predicate `len(node) <= n_taxa` is evaluated on the resulting
node; if it fails, the (post-detachment) children are visited in turn.
A visited *leaf* named `PART.` detaches itself from its parent (ete3
`iter_leaves` yields the node itself), which `detachChildrenPass` models
by dropping it; on the root, `detach()` is a no-op, which the
`detachLeavesF [] = []` case models. -/
def detachVisit (nTaxa : ℕ) : ETree → ETree
  | .node nm d ch =>
    let ch' := if hasPfx "PART." nm then detachLeavesF ch else ch
    if leafCount (.node nm d ch') ≤ nTaxa then .node nm d ch'
    else .node nm d (detachChildrenPass nTaxa ch')
termination_by t => sizeOf t
decreasing_by
  simp only [ETree.node.sizeOf_spec]
  split
  · exact lt_of_le_of_lt (sizeOf_detachLeavesF_le' _) (by omega)
  · omega

/-- Visits a list of sibling nodes during the second traversal; a
`PART.`-named leaf removes itself from its parent's child list. -/
def detachChildrenPass (nTaxa : ℕ) : List ETree → List ETree
  | [] => []
  | c :: cs =>
    if hasPfx "PART." c.name && c.isLeafNode then detachChildrenPass nTaxa cs
    else detachVisit nTaxa c :: detachChildrenPass nTaxa cs
termination_by l => sizeOf l
decreasing_by
  all_goals simp only [List.cons.sizeOf_spec]
  all_goals omega
end

/-- The whole of `split_tree` (`split_large_tree.py` lines 56-115) on an
in-memory tree, recording everything the claims speak about.  `profile` is
the returned profile-sequence count; `subs` lists, in preorder, the data
written for each extracted subtree; `supertree` is the in-memory tree
persisted after the second traversal (`none` on the no-split path, where
no supertree is written).  Failures (the unbound `outfile` on the
no-outgroup branch, and `assert(d > n.dist)`) abort the run. -/
structure SplitResult where
  profile : ℕ
  subs : List SubOut
  supertree : Option ETree
deriving Repr

def splitTree (dngaps : String → ℕ) (nTaxa : ℕ) (q : Bool) (t : ETree) :
    Except String SplitResult :=
  if leafCount t ≤ nTaxa then
    .ok ⟨min 5 (leafCount t), [⟨leafNames t, leafCount t, none, none⟩], none⟩
  else
    match visitNode dngaps nTaxa q [] 0 t with
    | .error e => .error e
    | .ok (t', subs, _, prof) => .ok ⟨prof, subs, some (detachVisit nTaxa t')⟩

/-- Projection of a decomposition run to the returned profile count and the
per-subtree records (dropping the supertree), used to state concrete runs. -/
def splitMain (dngaps : String → ℕ) (nTaxa : ℕ) (q : Bool) (t : ETree) :
    Option (ℕ × List SubOut) :=
  match splitTree dngaps nTaxa q t with
  | .ok r => some (r.profile, r.subs)
  | .error _ => none

/-- Projection of a decomposition run to the message of the exception that
aborted it, if any. -/
def splitErr (dngaps : String → ℕ) (nTaxa : ℕ) (q : Bool) (t : ETree) :
    Option String :=
  match splitTree dngaps nTaxa q t with
  | .ok _ => none
  | .error e => some e

/-- Projection of a decomposition run to the persisted supertree. -/
def splitSuper (dngaps : String → ℕ) (nTaxa : ℕ) (q : Bool) (t : ETree) :
    Option ETree :=
  match splitTree dngaps nTaxa q t with
  | .ok r => r.supertree
  | .error _ => none

mutual
/-- The chain of nodes from the leaf named `g` up to the root of `t`:
`[leaf, parent, grandparent, ..., root]`.  This is the path the
`node = node.up` ascents of `main` (`shoot/__main__.py` lines 85-89) walk;
`none` when no leaf of `t` is named `g` (ete3 `t & gene` would raise).
When several leaves carry the name, the leftmost (first in preorder) is
used, as by ete3 `search_nodes`. -/
def ancestorsOf (g : String) : ETree → Option (List ETree)
  | .node nm d [] => if nm = g then some [ETree.node nm d []] else none
  | .node nm d (c :: cs) =>
    match ancestorsOfF g (c :: cs) with
    | some l => some (l ++ [ETree.node nm d (c :: cs)])
    | none => none

def ancestorsOfF (g : String) : List ETree → Option (List ETree)
  | [] => none
  | c :: cs =>
    match ancestorsOf g c with
    | some l => some l
    | none => ancestorsOfF g cs
end

/-- The `while len(node) < nU` ascent loop of `main` (`shoot/__main__.py`
lines 86-89) together with the read of `node_prev`/`n_taxa_prev` after it:
walks up the ancestor chain while the leaf count is below `nU`, recording
the previous node, and stops at the first node with leaf count at least
`nU`, returning `(node_prev, node)`.  Returns `none` when the loop body
never ran, in which case Python raises `UnboundLocalError` reading
`node_prev` (or `n_taxa_prev`) in the decision expression on line 92. -/
def ascendLoop (nU : ℕ) : List ETree → Option ETree → Option (ETree × ETree)
  | [], _ => none
  | c :: rest, prev =>
    if leafCount c < nU then ascendLoop nU rest (some c)
    else
      match prev with
      | some p => some (p, c)
      | none => none

/-- Scope narrowing (`shoot/__main__.py` lines 81-95): with no upper bound
the tree is left unchanged; a tree within the bound is left unchanged;
otherwise ascend from the query leaf and return
`node_prev if (nL is None or n_taxa_prev >= nL) else node`.
`none` models the run failing with an exception (query gene absent, or
`UnboundLocalError` when the ascent loop never ran). -/
def narrow (nUopt nLopt : Option ℕ) (t : ETree) (g : String) : Option ETree :=
  match nUopt with
  | none => some t
  | some nU =>
    if leafCount t ≤ nU then some t
    else
      match ancestorsOf g t with
      | none => none
      | some chain =>
        match ascendLoop nU chain none with
        | none => none
        | some (prev, nd) =>
          some (match nLopt with
                | none => prev
                | some nL => if nL ≤ leafCount prev then prev else nd)

/-- Python `name.split("_")` on the character list of a string:
`splitChar c l` cuts `l` at every occurrence of `c`; the empty list yields
`[[]]`, matching `"".split("_") == [""]`. -/
def splitChar (c : Char) : List Char → List (List Char)
  | [] => [[]]
  | x :: xs =>
    match splitChar c xs with
    | [] => [[]]
    | y :: ys => if x = c then [] :: y :: ys else (x :: y) :: ys

/-- `gene_to_species` (`shoot/__main__.py` lines 134-142):
`"_".join(name.split("_")[:2])`, the first two underscore-delimited tokens
of the gene name. -/
def gene_to_species (name : String) : String :=
  String.intercalate "_" (((splitChar '_' name.data).take 2).map (fun l => ⟨l⟩))

mutual
/-- The per-ancestor `genes_other` lists of `write_orthologs`
(`shoot/__main__.py` lines 157-163), from the ancestor nearest the query
leaf up to the root: at each ancestor on the path to the leaf named `g`,
the leaf names under all children other than the one just ascended from
(identity comparison `node != n_prev`), in child order.  `none` when no
leaf is named `g`. -/
def siblingGenesChain (g : String) : ETree → Option (List (List String))
  | .node nm _ [] => if nm = g then some [] else none
  | .node _ _ (c :: cs) => siblingChainF g [] (c :: cs)

def siblingChainF (g : String) (before : List ETree) : List ETree → Option (List (List String))
  | [] => none
  | c :: cs =>
    match siblingGenesChain g c with
    | some levels => some (levels ++ [forestLeafNames (before ++ cs)])
    | none => siblingChainF g (before ++ [c]) cs
end

/-- Lexicographic comparison of character lists by Unicode code point:
Python's string order, used by `sorted`.  (Core `String.lt` is compiled
against opaque iterator primitives, so the order is modelled directly on
the character lists.) -/
def charListLe : List Char → List Char → Bool
  | [], _ => true
  | _ :: _, [] => false
  | x :: xs, y :: ys => if x < y then true else if y < x then false else charListLe xs ys

/-- `add_orthologs_to_file` (`shoot/__main__.py` lines 174-188): group the
genes by species preserving order, then for each species key in ascending
sort order and not in `overlap`, one output row
`(species, ", ".join(genes))`. -/
def addOrthologRows (genes : List String) (overlap : Finset String) : List (String × String) :=
  (List.insertionSort (fun a b : String => charListLe a.data b.data = true)
      (genes.map gene_to_species).dedup).filterMap
    (fun sp =>
      if sp ∈ overlap then none
      else some (sp, String.intercalate ", " (genes.filter (fun g => gene_to_species g = sp))))

/-- What `write_orthologs` (`shoot/__main__.py` lines 159-171) computes at
one ancestor: the sister genes, the overlap size `o`, the size bound
`m = min(|species_other|, |species_query_branch|)`, whether the clade was
emitted, and the rows written for it. -/
structure LevelOut where
  genes : List String
  o : ℕ
  m : ℕ
  emitted : Bool
  rows : List (String × String)
deriving Repr, DecidableEq

/-- The ancestor loop of `write_orthologs` (`shoot/__main__.py` lines
159-171): starting from the accumulated species set `acc`
(`species_query_branch`, initially empty), for each ancestor's sister gene
list compute `species_other`, `overlap`, `o` and `m`, emit iff
`o == 0 or (m >= 4 and o == 1) or (m >= 9 and o == 2)`, then add
`species_other` to the accumulator whether or not the clade was emitted. -/
def processLevels (acc : Finset String) : List (List String) → List LevelOut
  | [] => []
  | gs :: rest =>
    let spOther := (gs.map gene_to_species).toFinset
    let ov := acc ∩ spOther
    let o := ov.card
    let m := min spOther.card acc.card
    let em := decide (o = 0 ∨ (4 ≤ m ∧ o = 1) ∨ (9 ≤ m ∧ o = 2))
    ⟨gs, o, m, em, if em then addOrthologRows gs ov else []⟩ ::
      processLevels (acc ∪ spOther) rest

/-- The whole of `write_orthologs` for a tree and query gene, as the list of
per-ancestor outcomes (nearest ancestor first). -/
def orthologDecisions (t : ETree) (g : String) : Option (List LevelOut) :=
  (siblingGenesChain g t).map (processLevels ∅)

/-- The data rows of the ortholog report file (after the header), in write
order. -/
def orthologRows (t : ETree) (g : String) : Option (List (String × String)) :=
  (orthologDecisions t g).map (fun ls => (ls.map LevelOut.rows).flatten)

/-! ### Concrete inputs used by the claim instances -/

/-- The reference tree `((A:1,B:1):1,(C:1,D:1):1);` of the spec's end-to-end
scenario (spec section 8). -/
def tree1 : ETree :=
  .node "" 0 [.node "" 1 [.node "A" 1 [], .node "B" 1 []],
              .node "" 1 [.node "C" 1 [], .node "D" 1 []]]

/-- Gap counts for `tree1`: gene `D` has one gap, the others none. -/
def dn1 : String → ℕ := fun g => if g = "D" then 1 else 0

/-- An alignment with no gap characters at all. -/
def dn0 : String → ℕ := fun _ => 0

/-- A tree whose first boundary subtree `((A:1,B:1):1,C:1)` has an internal
child: `(((A:1,B:1):1,C:1):1,(D:1,E:1):1);`. -/
def tree3 : ETree :=
  .node "" 0
    [.node "" 1 [.node "" 1 [.node "A" 1 [], .node "B" 1 []], .node "C" 1 []],
     .node "" 1 [.node "D" 1 [], .node "E" 1 []]]

/-- A 15-leaf tree that decomposes, for a target of 7 taxa, into boundary
subtrees of sizes `[3, 7, 5]`. -/
def tree8 : ETree :=
  .node "" 0
    [.node "" 1
      [.node "" 1 [.node "x1" 1 [], .node "x2" 1 [], .node "x3" 1 []],
       .node "" 1 [.node "y1" 1 [], .node "y2" 1 [], .node "y3" 1 [],
                   .node "y4" 1 [], .node "y5" 1 [], .node "y6" 1 [],
                   .node "y7" 1 []]],
     .node "" 1 [.node "z1" 1 [], .node "z2" 1 [], .node "z3" 1 [],
                 .node "z4" 1 [], .node "z5" 1 []]]

/-- The two-leaf tree `(A:1,B:1);`. -/
def tree9 : ETree := .node "" 0 [.node "A" 1 [], .node "B" 1 []]

/-- Gap counts: `C` has 5 gaps, `D` has 3, everything else none. -/
def dnW : String → ℕ := fun g => if g = "C" then 5 else if g = "D" then 3 else 0

def treeC6A : ETree :=
  .node "" 0
    [.node "" 1 [.node "qq_x_q1" 1 [],
                 .node "" 1 [.node "s1_a_a1" 1 [], .node "s2_a_a2" 1 [],
                             .node "s3_a_a3" 1 [], .node "s4_a_a4" 1 []]],
     .node "" 1 [.node "s1_a_b1" 1 [], .node "s5_a_b5" 1 [],
                 .node "s6_a_b6" 1 [], .node "s7_a_b7" 1 []]]

/-- As `treeC6A`, but the clade met at the second ancestor has only 3
species, one of which (`s1_a`) is shared with the accumulated set. -/
def treeC6B : ETree :=
  .node "" 0
    [.node "" 1 [.node "qq_x_q1" 1 [],
                 .node "" 1 [.node "s1_a_a1" 1 [], .node "s2_a_a2" 1 [],
                             .node "s3_a_a3" 1 [], .node "s4_a_a4" 1 []]],
     .node "" 1 [.node "s1_a_b1" 1 [], .node "s5_a_b5" 1 [],
                 .node "s6_a_b6" 1 []]]

/-! ### Supporting lemmas -/

lemma forestLeafNames_eq : ∀ l : List ETree, forestLeafNames l = (l.map leafNames).flatten := by
  intro l
  induction l with
  | nil => simp [forestLeafNames]
  | cons c cs ih => simp [forestLeafNames, ih]

lemma leafNames_internal (nm : String) (d : ℚ) (ch : List ETree) (h : ch ≠ []) :
    leafNames (.node nm d ch) = forestLeafNames ch := by
  cases ch with
  | nil => exact absurd rfl h
  | cons c cs => simp [leafNames, forestLeafNames]

lemma leafNames_ne_nil : ∀ t : ETree, leafNames t ≠ [] := by
  refine ETree.strongInd (fun nm d ch ih => ?_)
  cases ch with
  | nil => simp [leafNames]
  | cons c cs =>
    have := ih c (by simp)
    simp [leafNames]
    intro hc
    exact absurd hc this

lemma leafCount_pos (t : ETree) : 1 ≤ leafCount t := by
  have := leafNames_ne_nil t
  simpa [leafCount, Nat.one_le_iff_ne_zero, List.length_eq_zero] using this

lemma boundariesF_eq : ∀ l : List ETree,
    boundariesF nTaxa l = (l.map (boundaries nTaxa)).flatten := by
  intro l
  induction l with
  | nil => simp [boundariesF]
  | cons c cs ih => simp [boundariesF, ih]

lemma boundaries_mem_le {nTaxa : ℕ} :
    ∀ t : ETree, ∀ b ∈ boundaries nTaxa t, leafCount b ≤ nTaxa := by
  refine ETree.strongInd (fun nm d ch ih b hb => ?_)
  rw [boundaries] at hb
  split at hb
  · rename_i hle
    simp at hb
    subst hb
    exact hle
  · rw [boundariesF_eq] at hb
    simp at hb
    obtain ⟨c, hc, hbc⟩ := hb
    exact ih c hc b hbc

lemma boundariesF_cover {nTaxa : ℕ} (l : List ETree)
    (h : ∀ c ∈ l, ((boundaries nTaxa c).map leafNames).flatten = leafNames c) :
    ((boundariesF nTaxa l).map leafNames).flatten = forestLeafNames l := by
  induction l with
  | nil => simp [boundariesF, forestLeafNames]
  | cons c cs ih =>
    simp only [boundariesF, forestLeafNames, List.map_append, List.flatten_append]
    rw [h c (by simp), ih (fun x hx => h x (by simp [hx]))]

/-- With a positive target size, the boundary subtrees cover the leaves of
the tree exactly, in order. -/
lemma boundaries_cover {nTaxa : ℕ} (hn : 1 ≤ nTaxa) :
    ∀ t : ETree, ((boundaries nTaxa t).map leafNames).flatten = leafNames t := by
  refine ETree.strongInd (fun nm d ch ih => ?_)
  rw [boundaries]
  split
  · simp
  · rename_i hgt
    push_neg at hgt
    have hch : ch ≠ [] := by
      intro hnil
      subst hnil
      simp [leafCount, leafNames] at hgt
      omega
    rw [leafNames_internal nm d ch hch]
    exact boundariesF_cover ch ih

lemma processOutgroup_ok {dngaps : String → ℕ} {sisters : List ETree} {n : ETree}
    {g : String} {v : ℚ} (h : processOutgroup dngaps sisters n = .ok (g, v)) :
    pickOutgroup dngaps (forestLeafNames sisters) = some g ∧
      ∃ d, patristicToSister sisters n g = some d ∧ v = d - n.dist ∧ 0 < v := by
  unfold processOutgroup at h
  split at h
  · exact absurd h (by simp)
  · rename_i outgrp hp
    split at h
    · exact absurd h (by simp)
    · rename_i d hd
      split at h
      · rename_i hlt
        simp only [Except.ok.injEq, Prod.mk.injEq] at h
        obtain ⟨hg, hv⟩ := h
        subst hg
        refine ⟨hp, d, hd, hv.symm, ?_⟩
        rw [← hv]
        linarith
      · exact absurd h (by simp)

lemma processOutgroup_err {dngaps : String → ℕ} {sisters : List ETree} {n : ETree}
    {g : String} {d : ℚ} (hp : pickOutgroup dngaps (forestLeafNames sisters) = some g)
    (hd : patristicToSister sisters n g = some d) (hle : d ≤ n.dist) :
    processOutgroup dngaps sisters n = .error "AssertionError: not (d > n.dist)" := by
  unfold processOutgroup
  rw [hp]
  dsimp only
  rw [hd]
  dsimp only
  rw [if_neg (by linarith)]

/-- The per-subtree guarantees carried through the first traversal. -/
def SubsOk (nTaxa : ℕ) (subs : List SubOut) : Prop :=
  ∀ s ∈ subs, s.size = s.genes.length ∧ s.size ≤ nTaxa ∧
    ∀ g v, s.outgroup = some (g, v) → 0 < v

lemma visitChildren_spec {dngaps : String → ℕ} {nTaxa : ℕ} (l : List ETree)
    (hP : ∀ c ∈ l, ∀ q sisters i out, visitNode dngaps nTaxa q sisters i c = .ok out →
      out.2.1.map SubOut.genes = (boundaries nTaxa c).map leafNames ∧
      out.2.2.2 = ((boundaries nTaxa c).map (fun b => min 5 (leafCount b))).sum ∧
      SubsOk nTaxa out.2.1) :
    ∀ q done i out, visitChildren dngaps nTaxa q done i l = .ok out →
      out.2.1.map SubOut.genes = (boundariesF nTaxa l).map leafNames ∧
      out.2.2.2 = ((boundariesF nTaxa l).map (fun b => min 5 (leafCount b))).sum ∧
      SubsOk nTaxa out.2.1 := by
  induction l with
  | nil =>
    intro q done i out h
    simp only [visitChildren, Except.ok.injEq] at h
    subst h
    simp [boundariesF, SubsOk]
  | cons c rest ih =>
    intro q done i out h
    simp only [visitChildren] at h
    split at h
    · exact absurd h (by simp)
    · rename_i c' subs₁ ip₁ prof₁ hc
      split at h
      · exact absurd h (by simp)
      · rename_i ch₂ subs₂ ip₂ prof₂ hrest
        simp only [Except.ok.injEq] at h
        subst h
        obtain ⟨hm1, hp1, hs1⟩ :=
          hP c (by simp) q (done ++ rest) i (c', subs₁, ip₁, prof₁) hc
        obtain ⟨hm2, hp2, hs2⟩ :=
          ih (fun x hx => hP x (by simp [hx])) q (done ++ [c']) ip₁
            (ch₂, subs₂, ip₂, prof₂) hrest
        dsimp only at hm1 hp1 hs1 hm2 hp2 hs2 ⊢
        refine ⟨?_, ?_, ?_⟩
        · simp only [boundariesF, List.map_append, hm1, hm2]
        · simp only [boundariesF, List.map_append, List.sum_append, hp1, hp2]
        · intro s hs
          simp only [List.mem_append] at hs
          rcases hs with hs | hs
          · exact hs1 s hs
          · exact hs2 s hs

lemma visitNode_spec {dngaps : String → ℕ} {nTaxa : ℕ} :
    ∀ t : ETree, ∀ q sisters i out,
      visitNode dngaps nTaxa q sisters i t = .ok out →
      out.2.1.map SubOut.genes = (boundaries nTaxa t).map leafNames ∧
      out.2.2.2 = ((boundaries nTaxa t).map (fun b => min 5 (leafCount b))).sum ∧
      SubsOk nTaxa out.2.1 := by
  refine ETree.strongInd (fun nm d ch ih q sisters i out h => ?_)
  simp only [visitNode] at h
  by_cases hle : leafCount (ETree.node nm d ch) ≤ nTaxa
  · rw [if_pos hle] at h
    rw [boundaries, if_pos hle]
    cases q with
    | false => simp at h
    | true =>
      simp only [if_pos] at h
      split at h
      · exact absurd h (by simp)
      · rename_i outgrp spliced hpr
        simp only [Except.ok.injEq] at h
        subst h
        refine ⟨by simp, by simp, ?_⟩
        intro s hs
        simp only [List.mem_singleton] at hs
        subst hs
        refine ⟨rfl, hle, ?_⟩
        intro g v hgv
        simp only [Option.some.injEq, Prod.mk.injEq] at hgv
        obtain ⟨-, hv⟩ := hgv
        subst hv
        exact (processOutgroup_ok hpr).2.choose_spec.2.2
  · rw [if_neg hle] at h
    rw [boundaries, if_neg hle]
    split at h
    · exact absurd h (by simp)
    · rename_i ch₂ subs₂ ip₂ prof₂ hvc
      simp only [Except.ok.injEq] at h
      subst h
      exact visitChildren_spec ch ih q [] i (ch₂, subs₂, ip₂, prof₂) hvc

/-- Every successful decomposition records exactly the boundary subtrees, in
preorder, and returns the profile count `sum(min(5, l))` over them. -/
lemma splitTree_ok_spec {dngaps : String → ℕ} {nTaxa : ℕ} {q : Bool} {t : ETree}
    {r : SplitResult} (h : splitTree dngaps nTaxa q t = .ok r) :
    r.subs.map SubOut.genes = (boundaries nTaxa t).map leafNames ∧
      r.profile = ((boundaries nTaxa t).map (fun b => min 5 (leafCount b))).sum ∧
      SubsOk nTaxa r.subs := by
  unfold splitTree at h
  by_cases hle : leafCount t ≤ nTaxa
  · rw [if_pos hle] at h
    simp only [Except.ok.injEq] at h
    subst h
    obtain ⟨nm, d, ch⟩ := t
    rw [boundaries, if_pos hle]
    refine ⟨by simp, by simp, ?_⟩
    intro s hs
    simp only [List.mem_singleton] at hs
    subst hs
    exact ⟨rfl, hle, by simp⟩
  · rw [if_neg hle] at h
    split at h
    · exact absurd h (by simp)
    · rename_i t' subs ip prof hv
      simp only [Except.ok.injEq] at h
      subst h
      exact visitNode_spec t q [] 0 (t', subs, ip, prof) hv

lemma splitMain_some {dngaps : String → ℕ} {nTaxa : ℕ} {q : Bool} {t : ETree}
    {p : ℕ × List SubOut} (h : splitMain dngaps nTaxa q t = some p) :
    ∃ r, splitTree dngaps nTaxa q t = .ok r ∧ r.profile = p.1 ∧ r.subs = p.2 := by
  unfold splitMain at h
  split at h
  · rename_i r hr
    simp only [Option.some.injEq] at h
    subst h
    exact ⟨r, hr, rfl, rfl⟩
  · exact absurd h (by simp)

/-- The decomposition run of the spec's end-to-end tree `tree1` with target
2 and outgroup preservation on: profile 4, two subtrees, and for each
subtree the alignment file receives only the subtree's own genes. -/
lemma tree1_run : splitMain dn1 2 true tree1 =
    some (4, [⟨["A", "B"], 2, some ("C", 2), some ["A", "B"]⟩,
              ⟨["C", "D"], 2, some ("A", 2), some ["C", "D"]⟩]) := by
  norm_num +decide [splitMain, splitTree, visitNode, visitChildren, processOutgroup,
    pickOutgroup, patristicToSister, leafDepth, forestLeafDepth, leafNames,
    forestLeafNames, leafCount, gapWeight, partName, tree1, dn1, ETree.dist,
    ETree.name, ETree.children, ETree.isLeafNode]

/-! ### The claims -/

/-- C4, counterexample: with target size `0` the stopping predicate
`len(node) <= 0` never holds, so a decomposition run on the two-leaf tree
`(A:1,B:1);` (which is larger than the target) completes, returns profile
count `0` and produces **no** subtrees at all: the leaves `A`, `B` of the
tree appear in no subtree, contradicting the claimed exact coverage "for
all reference trees T and target sizes n". -/
theorem c4_counterexample_target_zero :
    splitMain dn0 0 true tree9 = some (0, []) ∧ leafNames tree9 = ["A", "B"] := by
  decide

/-- C4 (amended: for target sizes `n >= 1`; runs that abort, e.g. the
no-outgroup branch or an assertion failure, produce no complete output):
for every reference tree larger than the target size whose decomposition
completes, the concatenation of the subtrees' own leaf-gene lists is
exactly the leaf list of the tree (each leaf once, no duplication, no
omission), and every subtree's own leaf count (not counting the injected
outgroup) is at most the target. -/
theorem c4_leaf_coverage (dngaps : String → ℕ) (nTaxa : ℕ) (q : Bool) (t : ETree)
    (r : SplitResult) (hn : 1 ≤ nTaxa) (_hbig : nTaxa < leafCount t)
    (h : splitTree dngaps nTaxa q t = .ok r) :
    (r.subs.map SubOut.genes).flatten = leafNames t ∧
      ∀ s ∈ r.subs, s.genes.length ≤ nTaxa := by
  obtain ⟨hm, -, hs⟩ := splitTree_ok_spec h
  constructor
  · rw [hm, boundaries_cover hn]
  · intro s hsm
    obtain ⟨h1, h2, -⟩ := hs s hsm
    omega

theorem c4_leaf_coverage_witness :
    ∃ r, splitTree dn1 2 true tree1 = Except.ok r ∧
      (r.subs.map SubOut.genes).flatten = leafNames tree1 ∧
      ∀ s ∈ r.subs, s.genes.length ≤ 2 := by
  obtain ⟨r, hr, -, -⟩ := splitMain_some tree1_run
  exact ⟨r, hr, c4_leaf_coverage dn1 2 true tree1 r (by decide) (by decide) hr⟩

/-- C1, failing input: decomposing `((A:1,B:1):1,(C:1,D:1):1);` with target
2 and outgroup preservation on chooses outgroup `C` for the first boundary
subtree `(A,B)`, but passes only `["A", "B"]` to the alignment writer: the
outgroup's sequence (whether under its own name or as
`SHOOTOUTGROUP_C`) is **not** written to the per-subtree alignment file.
The renamed outgroup ends up only in the `translate` dictionary that
`split_tree` builds on lines 93-94 and never uses. -/
theorem c1_msa_omits_outgroup :
    (∃ sup rest,
      splitTree dn1 2 true tree1 =
        .ok ⟨4, ⟨["A", "B"], 2, some ("C", 2), some ["A", "B"]⟩ :: rest, sup⟩) ∧
    "C" ∉ (["A", "B"] : List String) ∧
    "SHOOTOUTGROUP_C" ∉ (["A", "B"] : List String) := by
  refine ⟨?_, by decide, by decide⟩
  obtain ⟨r, hr, hp, hs⟩ := splitMain_some tree1_run
  obtain ⟨p, subs, sup⟩ := r
  simp only at hp hs
  subst hp
  subst hs
  exact ⟨sup, [⟨["C", "D"], 2, some ("A", 2), some ["C", "D"]⟩], hr⟩

/-- C2, failing input: with outgroup preservation off, the very first
boundary node evaluates `nwk = n.write(outfile)` (line 74) where the local
variable `outfile` is only assigned later (line 96), so the decomposition
of any tree that needs splitting raises `UnboundLocalError` on this branch
instead of completing. -/
theorem c2_no_outgroup_branch_fails :
    splitErr dn1 2 false tree1 =
      some "UnboundLocalError: local variable outfile referenced before assignment" := by
  decide

/-- C3, failing input: decomposing `(((A:1,B:1):1,C:1):1,(D:1,E:1):1);`
with target 3 extracts the subtree `((A,B),C)` as `PART.0-3_genes`, but the
second traversal's `for ch in n: ch.detach()` iterates the *leaves* of `n`
(ete3 node iteration), not its children: it detaches `A`, `B`, `C` but
leaves the now-childless internal node `(A,B)` attached below the partition
node, so the persisted supertree keeps an unnamed child under
`PART.0-3_genes` instead of a bare partition leaf. -/
theorem c3_partition_child_remains :
    splitSuper dn0 3 true tree3 =
      some (.node "" 0 [.node "PART.0-3_genes" 1 [.node "" 1 []],
                        .node "PART.1-2_genes" 1 []]) ∧
    (ETree.node "PART.0-3_genes" 1 [.node "" 1 []]).children ≠ [] := by
  refine ⟨?_, by decide⟩
  norm_num +decide [splitSuper, splitTree, visitNode, visitChildren, processOutgroup,
    pickOutgroup, patristicToSister, leafDepth, forestLeafDepth, leafNames,
    forestLeafNames, leafCount, gapWeight, partName, tree3, dn0, ETree.dist,
    ETree.name, ETree.children, ETree.isLeafNode, detachVisit, detachChildrenPass,
    detachLeaves, detachLeavesF]

/-- C5: for every boundary node processed with outgroup preservation on,
(i) a successful step returns the chosen outgroup together with the spliced
branch length, which equals the patristic distance `d` from the boundary
node to the outgroup minus the node's own branch length and is strictly
positive; (ii) whenever `d <= n.dist`, the `assert(d > n.dist)` fires and
the step is an error (aborting the decomposition) rather than emitting an
outgroup; (iii) consequently every subtree record of a completed
outgroup-on decomposition carries a strictly positive spliced length. -/
theorem c5_outgroup_distance_invariant :
    (∀ (dngaps : String → ℕ) (sisters : List ETree) (n : ETree) (g : String) (v : ℚ),
      processOutgroup dngaps sisters n = .ok (g, v) →
      ∃ d, pickOutgroup dngaps (forestLeafNames sisters) = some g ∧
        patristicToSister sisters n g = some d ∧ v = d - n.dist ∧ 0 < v) ∧
    (∀ (dngaps : String → ℕ) (sisters : List ETree) (n : ETree) (g : String) (d : ℚ),
      pickOutgroup dngaps (forestLeafNames sisters) = some g →
      patristicToSister sisters n g = some d → d ≤ n.dist →
      ∃ e, processOutgroup dngaps sisters n = .error e) ∧
    (∀ (dngaps : String → ℕ) (nTaxa : ℕ) (t : ETree) (r : SplitResult),
      splitTree dngaps nTaxa true t = .ok r →
      ∀ s ∈ r.subs, ∀ g v, s.outgroup = some (g, v) → 0 < v) := by
  refine ⟨?_, ?_, ?_⟩
  · intro dngaps sisters n g v h
    obtain ⟨hp, d, hd, hv, hpos⟩ := processOutgroup_ok h
    exact ⟨d, hp, hd, hv, hpos⟩
  · intro dngaps sisters n g d hp hd hle
    exact ⟨_, processOutgroup_err hp hd hle⟩
  · intro dngaps nTaxa t r h s hs g v hgv
    exact ((splitTree_ok_spec h).2.2 s hs).2.2 g v hgv

lemma ancestorsOfF_ex {g : String} {l : List ETree}
    (hP : ∀ c ∈ l, g ∈ leafNames c → ∃ a, ancestorsOf g c = some a)
    (hg : g ∈ forestLeafNames l) : ∃ a, ancestorsOfF g l = some a := by
  induction l with
  | nil => simp [forestLeafNames] at hg
  | cons c cs ih =>
    simp only [forestLeafNames, List.mem_append] at hg
    rw [ancestorsOfF]
    rcases hc : ancestorsOf g c with _ | a
    · rcases hg with hg | hg
      · obtain ⟨a, ha⟩ := hP c (by simp) hg
        rw [ha] at hc
        cases hc
      · exact ih (fun x hx => hP x (by simp [hx])) hg
    · exact ⟨a, rfl⟩

lemma ancestorsOf_ex {g : String} :
    ∀ t : ETree, g ∈ leafNames t → ∃ a, ancestorsOf g t = some a := by
  refine ETree.strongInd (fun nm d ch ih hg => ?_)
  cases ch with
  | nil =>
    simp only [leafNames, List.mem_singleton] at hg
    exact ⟨_, by rw [ancestorsOf, if_pos hg.symm]⟩
  | cons c cs =>
    have hg' : g ∈ forestLeafNames (c :: cs) := by
      rw [← leafNames_internal nm d (c :: cs) (by simp)]
      exact hg
    obtain ⟨a, ha⟩ := ancestorsOfF_ex ih hg'
    rw [ancestorsOf, ha]
    exact ⟨_, rfl⟩

lemma ancestorsOfF_some {g : String} {l : List ETree} {a : List ETree}
    (h : ancestorsOfF g l = some a) : ∃ c ∈ l, ancestorsOf g c = some a := by
  induction l with
  | nil => simp [ancestorsOfF] at h
  | cons c cs ih =>
    rw [ancestorsOfF] at h
    split at h
    · rename_i a' hc
      simp only [Option.some.injEq] at h
      subst h
      exact ⟨c, by simp, hc⟩
    · obtain ⟨c', hc', ha'⟩ := ih h
      exact ⟨c', by simp [hc'], ha'⟩

/-- Structure of the ancestor chain: every element contains the query leaf,
the last element is the whole tree, and the first is the query leaf itself
(leaf count 1). -/
lemma ancestorsOf_spec {g : String} :
    ∀ t : ETree, ∀ a, ancestorsOf g t = some a →
      (∀ e ∈ a, g ∈ leafNames e) ∧ a.getLast? = some t ∧
        ∃ h0, a.head? = some h0 ∧ leafCount h0 = 1 := by
  refine ETree.strongInd (fun nm d ch ih a h => ?_)
  cases ch with
  | nil =>
    rw [ancestorsOf] at h
    split at h
    · rename_i hnm
      simp only [Option.some.injEq] at h
      subst h
      refine ⟨?_, by simp, ETree.node nm d [], by simp, by simp [leafCount, leafNames]⟩
      intro e he
      simp only [List.mem_singleton] at he
      subst he
      simp [leafNames, hnm]
    · cases h
  | cons c cs =>
    rw [ancestorsOf] at h
    split at h
    · rename_i a0 hF
      simp only [Option.some.injEq] at h
      subst h
      obtain ⟨c', hc', ha'⟩ := ancestorsOfF_some hF
      obtain ⟨hmem, hlast, h0, hh0, hc0⟩ := ih c' hc' a0 ha'
      have ha0ne : a0 ≠ [] := by
        intro hnil
        subst hnil
        simp at hlast
      have hgc' : g ∈ leafNames c' := hmem c' (List.mem_of_mem_getLast? hlast)
      have hgt : g ∈ leafNames (ETree.node nm d (c :: cs)) := by
        rw [leafNames_internal nm d (c :: cs) (by simp), forestLeafNames_eq]
        simp only [List.mem_flatten, List.mem_map]
        exact ⟨leafNames c', ⟨c', hc', rfl⟩, hgc'⟩
      refine ⟨?_, ?_, h0, ?_, hc0⟩
      · intro e he
        simp only [List.mem_append, List.mem_singleton] at he
        rcases he with he | he
        · exact hmem e he
        · subst he
          exact hgt
      · simp [List.getLast?_concat]
      · cases a0 with
        | nil => exact absurd rfl ha0ne
        | cons x xs => simpa using hh0
    · cases h

lemma ascendLoop_total {nU : ℕ} :
    ∀ (chain : List ETree) (p0 : Option ETree),
      (∃ e ∈ chain, nU ≤ leafCount e) →
      (p0.isSome ∨ ∃ h0, chain.head? = some h0 ∧ leafCount h0 < nU) →
      (ascendLoop nU chain p0).isSome := by
  intro chain
  induction chain with
  | nil =>
    intro p0 hex _
    simp at hex
  | cons c rest ih =>
    intro p0 hex hst
    rw [ascendLoop.eq_def]
    dsimp only
    by_cases hc : leafCount c < nU
    · rw [if_pos hc]
      refine ih (some c) ?_ (Or.inl rfl)
      rcases hex with ⟨e, he, hne⟩
      simp only [List.mem_cons] at he
      rcases he with he | he
      · subst he
        omega
      · exact ⟨e, he, hne⟩
    · rw [if_neg hc]
      rcases p0 with _ | p
      · rcases hst with hst | ⟨h0, hh0, hlt⟩
        · simp at hst
        · simp only [List.head?_cons, Option.some.injEq] at hh0
          subst hh0
          omega
      · simp

lemma ascendLoop_spec {nU : ℕ} :
    ∀ (chain : List ETree) (p0 : Option ETree) (prev nd : ETree),
      ascendLoop nU chain p0 = some (prev, nd) →
      nU ≤ leafCount nd ∧ nd ∈ chain ∧
        ((p0 = some prev ∧ chain.head? = some nd) ∨
          (leafCount prev < nU ∧ ∃ i, chain[i]? = some prev ∧ chain[i + 1]? = some nd)) := by
  intro chain
  induction chain with
  | nil =>
    intro p0 prev nd h
    simp [ascendLoop] at h
  | cons c rest ih =>
    intro p0 prev nd h
    rw [ascendLoop.eq_def] at h
    dsimp only at h
    by_cases hc : leafCount c < nU
    · rw [if_pos hc] at h
      obtain ⟨hnd, hmem, hcase⟩ := ih (some c) prev nd h
      refine ⟨hnd, by simp [hmem], ?_⟩
      rcases hcase with ⟨hp, hh⟩ | ⟨hlt, i, hi, hi1⟩
      · simp only [Option.some.injEq] at hp
        subst hp
        refine Or.inr ⟨hc, 0, by simp, ?_⟩
        cases rest with
        | nil => simp at hh
        | cons r rs =>
          simp only [List.head?_cons, Option.some.injEq] at hh
          simp [hh]
      · exact Or.inr ⟨hlt, i + 1, by simpa using hi, by simpa using hi1⟩
    · rw [if_neg hc] at h
      rcases p0 with _ | p
      · simp at h
      · simp only [Option.some.injEq, Prod.mk.injEq] at h
        obtain ⟨hp, hn⟩ := h
        subst hp
        subst hn
        exact ⟨by omega, by simp, Or.inl ⟨rfl, by simp⟩⟩

/-- Full characterisation of scope narrowing on a tree with more leaves
than the upper bound, when the upper bound is at least 2. -/
lemma narrow_spec (nU : ℕ) (nL : Option ℕ) (t : ETree) (g : String)
    (h2 : 2 ≤ nU) (hbig : nU < leafCount t) (hg : g ∈ leafNames t) :
    ∃ chain prev nd r,
      ancestorsOf g t = some chain ∧
      ascendLoop nU chain none = some (prev, nd) ∧
      leafCount prev < nU ∧ nU ≤ leafCount nd ∧
      (∃ i, chain[i]? = some prev ∧ chain[i + 1]? = some nd) ∧
      narrow (some nU) nL t g = some r ∧
      r = (match nL with
           | none => prev
           | some l => if l ≤ leafCount prev then prev else nd) ∧
      g ∈ leafNames r ∧
      (leafCount r ≤ nU ∨ ∃ l, nL = some l ∧ leafCount prev < l ∧ r = nd) := by
  obtain ⟨chain, hchain⟩ := ancestorsOf_ex t hg
  obtain ⟨hmem, hlast, h0, hh0, hc0⟩ := ancestorsOf_spec t chain hchain
  have htot : (ascendLoop nU chain none).isSome := by
    refine ascendLoop_total chain none ⟨t, List.mem_of_mem_getLast? hlast, by omega⟩ ?_
    exact Or.inr ⟨h0, hh0, by omega⟩
  obtain ⟨⟨prev, nd⟩, hasc⟩ := Option.isSome_iff_exists.1 htot
  obtain ⟨hnd, hndmem, hcase⟩ := ascendLoop_spec chain none prev nd hasc
  rcases hcase with ⟨hp, -⟩ | ⟨hprev, i, hi, hi1⟩
  · cases hp
  have hprevmem : prev ∈ chain := List.getElem?_mem hi
  have hnarrow : narrow (some nU) nL t g =
      some (match nL with
            | none => prev
            | some l => if l ≤ leafCount prev then prev else nd) := by
    unfold narrow
    dsimp only
    rw [if_neg (by omega), hchain]
    dsimp only
    rw [hasc]
  refine ⟨chain, prev, nd, _, hchain, hasc, hprev, hnd, ⟨i, hi, hi1⟩, hnarrow, rfl, ?_, ?_⟩
  · rcases nL with _ | l
    · exact hmem prev hprevmem
    · dsimp only
      by_cases hl : l ≤ leafCount prev
      · rw [if_pos hl]
        exact hmem prev hprevmem
      · rw [if_neg hl]
        exact hmem nd hndmem
  · rcases nL with _ | l
    · exact Or.inl (by dsimp only; omega)
    · dsimp only
      by_cases hl : l ≤ leafCount prev
      · rw [if_pos hl]
        exact Or.inl (by omega)
      · rw [if_neg hl]
        exact Or.inr ⟨l, rfl, by omega, rfl⟩

/-- C7: scope narrowing on a tree with more leaves than the upper bound
(with the implicit totality condition `2 <= nU` of claim C10).  The ascent
finds a consecutive pair `(node_prev, node)` of ancestors of the query leaf
with `len(node_prev) < nU <= len(node)`; the returned subtree is
`node_prev` when the lower bound is unset or `n_taxa_prev >= nL`, and
`node` otherwise; it always contains the query leaf, and its leaf count
exceeds the upper bound only when accepting `node_prev` would have dropped
below the lower bound. -/
theorem c7_scope_narrowing (nU : ℕ) (nL : Option ℕ) (t : ETree) (g : String)
    (h2 : 2 ≤ nU) (hbig : nU < leafCount t) (hg : g ∈ leafNames t) :
    ∃ chain prev nd r,
      ancestorsOf g t = some chain ∧
      ascendLoop nU chain none = some (prev, nd) ∧
      leafCount prev < nU ∧ nU ≤ leafCount nd ∧
      (∃ i, chain[i]? = some prev ∧ chain[i + 1]? = some nd) ∧
      narrow (some nU) nL t g = some r ∧
      r = (match nL with
           | none => prev
           | some l => if l ≤ leafCount prev then prev else nd) ∧
      g ∈ leafNames r ∧
      (leafCount r ≤ nU ∨ ∃ l, nL = some l ∧ leafCount prev < l ∧ r = nd) :=
  narrow_spec nU nL t g h2 hbig hg

theorem c7_scope_narrowing_witness :
    ∃ chain prev nd r,
      ancestorsOf "A" tree1 = some chain ∧
      ascendLoop 2 chain none = some (prev, nd) ∧
      leafCount prev < 2 ∧ 2 ≤ leafCount nd ∧
      (∃ i, chain[i]? = some prev ∧ chain[i + 1]? = some nd) ∧
      narrow (some 2) (some 1) tree1 "A" = some r ∧
      r = (match (some 1 : Option ℕ) with
           | none => prev
           | some l => if l ≤ leafCount prev then prev else nd) ∧
      "A" ∈ leafNames r ∧
      (leafCount r ≤ 2 ∨ ∃ l, (some 1 : Option ℕ) = some l ∧ leafCount prev < l ∧ r = nd) :=
  c7_scope_narrowing 2 (some 1) tree1 "A" (by decide) (by decide) (by decide)

/-- C10: the ascent loop of scope narrowing runs at least once exactly when
the upper bound is at least 2 (the query leaf, where the ascent starts, has
leaf count 1).  For `nU >= 2` and a tree with more leaves than `nU`,
narrowing returns a subtree; for `nU <= 1` the loop body never runs, the
decision expression reads the never-assigned `node_prev`/`n_taxa_prev`,
and the operation fails (`UnboundLocalError`, modelled by `none`) instead
of returning a subtree. -/
theorem c10_narrow_totality :
    (∀ (nU : ℕ) (nL : Option ℕ) (t : ETree) (g : String),
      2 ≤ nU → nU < leafCount t → g ∈ leafNames t →
      (narrow (some nU) nL t g).isSome) ∧
    (∀ (nU : ℕ) (nL : Option ℕ) (t : ETree) (g : String),
      nU ≤ 1 → nU < leafCount t → g ∈ leafNames t →
      narrow (some nU) nL t g = none) := by
  constructor
  · intro nU nL t g h2 hbig hg
    obtain ⟨chain, prev, nd, r, -, -, -, -, -, hnarrow, -, -, -⟩ :=
      narrow_spec nU nL t g h2 hbig hg
    simp [hnarrow]
  · intro nU nL t g h1 hbig hg
    obtain ⟨chain, hchain⟩ := ancestorsOf_ex t hg
    obtain ⟨-, hlast, h0, hh0, hc0⟩ := ancestorsOf_spec t chain hchain
    unfold narrow
    dsimp only
    rw [if_neg (by omega), hchain]
    dsimp only
    cases chain with
    | nil => simp at hh0
    | cons c rest =>
      simp only [List.head?_cons, Option.some.injEq] at hh0
      subst hh0
      rw [ascendLoop.eq_def]
      dsimp only
      rw [if_neg (by omega)]

theorem c10_narrow_totality_witness :
    (narrow (some 2) none tree1 "A").isSome ∧
      narrow (some 1) none tree1 "A" = none :=
  ⟨c10_narrow_totality.1 2 none tree1 "A" (by decide) (by decide) (by decide),
   c10_narrow_totality.2 1 none tree1 "A" (by decide) (by decide) (by decide)⟩

lemma foldlMin_le_init : ∀ (l : List ℕ) (a : ℕ), l.foldl min a ≤ a := by
  intro l
  induction l with
  | nil => simp
  | cons x xs ih =>
    intro a
    calc (x :: xs).foldl min a = xs.foldl min (min a x) := rfl
    _ ≤ min a x := ih (min a x)
    _ ≤ a := min_le_left a x

lemma foldlMin_le_mem : ∀ (l : List ℕ) (a b : ℕ), b ∈ l → l.foldl min a ≤ b := by
  intro l
  induction l with
  | nil => simp
  | cons x xs ih =>
    intro a b hb
    simp only [List.mem_cons] at hb
    rcases hb with hb | hb
    · subst hb
      calc (b :: xs).foldl min a = xs.foldl min (min a b) := rfl
      _ ≤ min a b := foldlMin_le_init xs (min a b)
      _ ≤ b := min_le_right a b
    · exact ih (min a x) b hb

lemma foldlMin_mem_or : ∀ (l : List ℕ) (a : ℕ), l.foldl min a = a ∨ l.foldl min a ∈ l := by
  intro l
  induction l with
  | nil => simp
  | cons x xs ih =>
    intro a
    have : (x :: xs).foldl min a = xs.foldl min (min a x) := rfl
    rw [this]
    rcases ih (min a x) with h | h
    · rcases Nat.le_total a x with hax | hax
      · rw [h, min_eq_left hax]
        exact Or.inl rfl
      · rw [h, min_eq_right hax]
        exact Or.inr (by simp)
    · exact Or.inr (by simp [h])

lemma indexOf_first {α : Type _} [DecidableEq α] [LawfulBEq α] :
    ∀ (l : List α) (a : α) (j : ℕ), j < l.indexOf a → l[j]? ≠ some a := by
  intro l
  induction l with
  | nil => simp
  | cons x xs ih =>
    intro a j hj
    rw [List.indexOf_cons] at hj
    by_cases hx : x = a
    · simp [hx] at hj
    · have hbne : (x == a) = false := beq_false_of_ne hx
      rw [hbne] at hj
      simp only [cond_false] at hj
      cases j with
      | zero =>
        simp only [List.getElem?_cons_zero, ne_eq, Option.some.injEq]
        exact hx
      | succ k =>
        simp only [List.getElem?_cons_succ]
        exact ih a k (by omega)

/-- The first index of a minimal element: if `x` is a member of `sg.map w`
and a lower bound of it, then `(sg.map w).indexOf x` points at the first
candidate whose weight is `x`. -/
lemma firstIndexOf_min {w : String → ℕ} {sg : List String} {x : ℕ}
    (hxmem : x ∈ sg.map w) (hlb : ∀ e ∈ sg.map w, x ≤ e) :
    ∃ hlt : (sg.map w).indexOf x < sg.length,
      sg[(sg.map w).indexOf x]? = some (sg.get ⟨(sg.map w).indexOf x, hlt⟩) ∧
      w (sg.get ⟨(sg.map w).indexOf x, hlt⟩) = x ∧
      ∀ j (hj : j < (sg.map w).indexOf x),
        x < w (sg.get ⟨j, Nat.lt_trans hj hlt⟩) := by
  have hilt : (sg.map w).indexOf x < (sg.map w).length :=
    List.indexOf_lt_length.2 hxmem
  have hlen : (sg.map w).length = sg.length := by simp
  refine ⟨by omega, ?_, ?_, ?_⟩
  · rw [List.getElem?_eq_getElem (by omega)]
    simp [List.get_eq_getElem]
  · have hq := List.getElem?_indexOf hxmem
    rw [List.getElem?_eq_getElem hilt] at hq
    simp only [Option.some.injEq] at hq
    simp only [List.get_eq_getElem]
    rw [List.getElem_map] at hq
    exact hq
  · intro j hj
    have hne := indexOf_first (sg.map w) x j hj
    rw [List.getElem?_eq_getElem (by omega)] at hne
    simp only [ne_eq, Option.some.injEq] at hne
    have hle := hlb ((sg.map w)[j]) (List.getElem_mem _)
    rw [List.getElem_map] at hne hle
    simp only [List.get_eq_getElem]
    omega

/-- `min`/`index` behaviour of the outgroup choice on a nonempty candidate
list: the returned gene sits at the first index achieving the minimal
`n_gaps` entry. -/
lemma pickOutgroup_spec (dngaps : String → ℕ) (g0 : String) (gs : List String) :
    ∃ i, ∃ hlt : i < (g0 :: gs).length,
      pickOutgroup dngaps (g0 :: gs) = some ((g0 :: gs).get ⟨i, hlt⟩) ∧
      (∀ g' ∈ g0 :: gs,
        gapWeight dngaps ((g0 :: gs).get ⟨i, hlt⟩) ≤ gapWeight dngaps g') ∧
      ∀ j (hj : j < i), gapWeight dngaps ((g0 :: gs).get ⟨i, hlt⟩) <
        gapWeight dngaps ((g0 :: gs).get ⟨j, Nat.lt_trans hj hlt⟩) := by
  have hlb : ∀ e ∈ (g0 :: gs).map (gapWeight dngaps),
      (gs.map (gapWeight dngaps)).foldl min (gapWeight dngaps g0) ≤ e := by
    intro e he
    simp only [List.map_cons, List.mem_cons] at he
    rcases he with he | he
    · subst he
      exact foldlMin_le_init _ _
    · exact foldlMin_le_mem _ _ _ he
  have hxmem : (gs.map (gapWeight dngaps)).foldl min (gapWeight dngaps g0)
      ∈ (g0 :: gs).map (gapWeight dngaps) := by
    rcases foldlMin_mem_or (gs.map (gapWeight dngaps)) (gapWeight dngaps g0) with h | h
    · simp [h]
    · simp only [List.map_cons, List.mem_cons]
      exact Or.inr h
  obtain ⟨hlt, hget, hwx, hfirst⟩ := firstIndexOf_min hxmem hlb
  refine ⟨_, hlt, ?_, ?_, ?_⟩
  · simp only [pickOutgroup]
    exact hget
  · intro g' hg'
    rw [hwx]
    exact hlb _ (List.mem_map_of_mem (gapWeight dngaps) hg')
  · intro j hj
    rw [hwx]
    exact hfirst j hj

/-- C9, counterexample: decomposing `(A:1,B:1);` with target 1 and outgroup
preservation on first extracts the single-leaf subtree `A`, renaming that
leaf to `PART.0-1_genes`; when the second boundary `B` is processed, its
only sister-clade leaf is that partition leaf.  All `n_gaps` entries are
then the `9e99` sentinel, it *is* the minimum, and the partition leaf is
chosen as the outgroup — it is not excluded.  This refutes the claim's
"for every input, including the case where all sister-clade leaves are
partition leaves". -/
theorem c9_counterexample_all_partition_sisters :
    (∃ sup,
      splitTree dn0 1 true tree9 =
        .ok ⟨2, [⟨["A"], 1, some ("B", 1), some ["A"]⟩,
                 ⟨["B"], 1, some ("PART.0-1_genes", 1), some ["B"]⟩], sup⟩) ∧
    hasPfx "PART." "PART.0-1_genes" = true := by
  refine ⟨?_, by decide⟩
  have hrun : splitMain dn0 1 true tree9 =
      some (2, [⟨["A"], 1, some ("B", 1), some ["A"]⟩,
                ⟨["B"], 1, some ("PART.0-1_genes", 1), some ["B"]⟩]) := by
    norm_num +decide [splitMain, splitTree, visitNode, visitChildren, processOutgroup,
      pickOutgroup, patristicToSister, leafDepth, forestLeafDepth, leafNames,
      forestLeafNames, leafCount, gapWeight, partName, tree9, dn0, ETree.dist,
      ETree.name, ETree.children, ETree.isLeafNode]
  obtain ⟨r, hr, hp, hs⟩ := splitMain_some hrun
  obtain ⟨p, subs, sup⟩ := r
  simp only at hp hs
  subst hp
  subst hs
  exact ⟨sup, hr⟩

/-- C9 (amended: the exclusion of partition-named candidates holds whenever
at least one non-partition candidate exists; if every sister-clade leaf is
a partition leaf, the first of them is chosen): under those conditions the
selected outgroup is at the first position attaining the minimal gap
count, is not partition-named, and has no more gaps than any other
non-partition candidate.  `hreal` states that the real gap counts are below
the `9e99` sentinel (they are bounded by the alignment width). -/
theorem c9_outgroup_selection (dngaps : String → ℕ) (sg : List String)
    (hreal : ∀ g ∈ sg, dngaps g < bigGapSentinel)
    (hex : ∃ g ∈ sg, hasPfx "PART." g = false) :
    ∃ i, ∃ hlt : i < sg.length,
      pickOutgroup dngaps sg = some (sg.get ⟨i, hlt⟩) ∧
      hasPfx "PART." (sg.get ⟨i, hlt⟩) = false ∧
      (∀ g' ∈ sg, hasPfx "PART." g' = false →
        dngaps (sg.get ⟨i, hlt⟩) ≤ dngaps g') ∧
      ∀ j (hj : j < i), gapWeight dngaps (sg.get ⟨i, hlt⟩) <
        gapWeight dngaps (sg.get ⟨j, Nat.lt_trans hj hlt⟩) := by
  obtain ⟨gn, hgn, hgnp⟩ := hex
  cases sg with
  | nil => simp at hgn
  | cons g0 gs =>
    obtain ⟨i, hlt, hpick, hmin, hfirst⟩ := pickOutgroup_spec dngaps g0 gs
    have hwgn : gapWeight dngaps gn = dngaps gn := by
      simp [gapWeight, hgnp]
    have hchosen_lt : gapWeight dngaps ((g0 :: gs).get ⟨i, hlt⟩) < bigGapSentinel := by
      calc gapWeight dngaps ((g0 :: gs).get ⟨i, hlt⟩) ≤ gapWeight dngaps gn :=
            hmin gn hgn
      _ = dngaps gn := hwgn
      _ < bigGapSentinel := hreal gn hgn
    have hnp : hasPfx "PART." ((g0 :: gs).get ⟨i, hlt⟩) = false := by
      by_contra hc
      rw [Bool.not_eq_false] at hc
      rw [gapWeight, if_pos hc] at hchosen_lt
      omega
    refine ⟨i, hlt, hpick, hnp, ?_, hfirst⟩
    intro g' hg' hg'p
    have h1 := hmin g' hg'
    simp only [gapWeight, hnp, hg'p, Bool.false_eq_true, if_false] at h1
    exact h1

theorem c9_outgroup_selection_witness :
    ∃ i, ∃ hlt : i < (["PART.0-1_genes", "C", "D"] : List String).length,
      pickOutgroup dnW ["PART.0-1_genes", "C", "D"] =
        some ((["PART.0-1_genes", "C", "D"] : List String).get ⟨i, hlt⟩) ∧
      hasPfx "PART." ((["PART.0-1_genes", "C", "D"] : List String).get ⟨i, hlt⟩) =
        false ∧
      (∀ g' ∈ (["PART.0-1_genes", "C", "D"] : List String),
        hasPfx "PART." g' = false →
        dnW ((["PART.0-1_genes", "C", "D"] : List String).get ⟨i, hlt⟩) ≤ dnW g') ∧
      ∀ j (hj : j < i),
        gapWeight dnW ((["PART.0-1_genes", "C", "D"] : List String).get ⟨i, hlt⟩) <
          gapWeight dnW ((["PART.0-1_genes", "C", "D"] : List String).get
            ⟨j, Nat.lt_trans hj hlt⟩) :=
  c9_outgroup_selection dnW ["PART.0-1_genes", "C", "D"] (by decide) (by decide)

lemma processLevels_emitted :
    ∀ (levels : List (List String)) (acc : Finset String) (k : ℕ) (out : LevelOut),
      (processLevels acc levels)[k]? = some out →
      (out.emitted = true ↔
        (out.o = 0 ∨ (4 ≤ out.m ∧ out.o = 1) ∨ (9 ≤ out.m ∧ out.o = 2))) := by
  intro levels
  induction levels with
  | nil =>
    intro acc k out h
    simp [processLevels] at h
  | cons gs rest ih =>
    intro acc k out h
    rw [processLevels] at h
    cases k with
    | zero =>
      simp only [List.getElem?_cons_zero, Option.some.injEq] at h
      subst h
      simp only [decide_eq_true_eq]
    | succ k =>
      simp only [List.getElem?_cons_succ] at h
      exact ih _ k out h

/-- C6: at every ancestor visited by `write_orthologs`, with `o` the size
of the overlap between the accumulated species set and the sister clade's
species set, and `m` the minimum of the two set sizes, the clade's genes
are emitted iff `o == 0`, or `m >= 4` and `o == 1`, or `m >= 9` and
`o == 2` (first conjunct, over every run of the inference).  In
particular (second and third conjuncts, concrete runs): a sister clade of
4 species sharing exactly 1 species with the 4 accumulated species
(`o = 1`, `m = 4`) is emitted, and shrinking that clade to 3 species with
the same 1-species overlap (`o = 1`, `m = 3`) is not. -/
theorem c6_emission_thresholds :
    (∀ (t : ETree) (g : String) (ls : List LevelOut) (k : ℕ) (out : LevelOut),
      orthologDecisions t g = some ls → ls[k]? = some out →
      (out.emitted = true ↔
        (out.o = 0 ∨ (4 ≤ out.m ∧ out.o = 1) ∨ (9 ≤ out.m ∧ out.o = 2)))) ∧
    orthologDecisions treeC6A "qq_x_q1" =
      some [⟨["s1_a_a1", "s2_a_a2", "s3_a_a3", "s4_a_a4"], 0, 0, true,
             [("s1_a", "s1_a_a1"), ("s2_a", "s2_a_a2"), ("s3_a", "s3_a_a3"),
              ("s4_a", "s4_a_a4")]⟩,
            ⟨["s1_a_b1", "s5_a_b5", "s6_a_b6", "s7_a_b7"], 1, 4, true,
             [("s5_a", "s5_a_b5"), ("s6_a", "s6_a_b6"), ("s7_a", "s7_a_b7")]⟩] ∧
    orthologDecisions treeC6B "qq_x_q1" =
      some [⟨["s1_a_a1", "s2_a_a2", "s3_a_a3", "s4_a_a4"], 0, 0, true,
             [("s1_a", "s1_a_a1"), ("s2_a", "s2_a_a2"), ("s3_a", "s3_a_a3"),
              ("s4_a", "s4_a_a4")]⟩,
            ⟨["s1_a_b1", "s5_a_b5", "s6_a_b6"], 1, 3, false, []⟩] := by
  refine ⟨?_, by decide, by decide⟩
  intro t g ls k out hls hk
  unfold orthologDecisions at hls
  rcases hchain : siblingGenesChain g t with _ | levels
  · rw [hchain] at hls
    simp at hls
  · rw [hchain] at hls
    simp only [Option.map_some', Option.some.injEq] at hls
    subst hls
    exact processLevels_emitted levels ∅ k out hk

theorem c6_emission_thresholds_witness :
    ((⟨["s1_a_b1", "s5_a_b5", "s6_a_b6", "s7_a_b7"], 1, 4, true,
       [("s5_a", "s5_a_b5"), ("s6_a", "s6_a_b6"), ("s7_a", "s7_a_b7")]⟩ :
        LevelOut).emitted = true ↔
      ((1 : ℕ) = 0 ∨ (4 ≤ (4 : ℕ) ∧ (1 : ℕ) = 1) ∨ (9 ≤ (4 : ℕ) ∧ (1 : ℕ) = 2))) :=
  c6_emission_thresholds.1 treeC6A "qq_x_q1"
    [⟨["s1_a_a1", "s2_a_a2", "s3_a_a3", "s4_a_a4"], 0, 0, true,
      [("s1_a", "s1_a_a1"), ("s2_a", "s2_a_a2"), ("s3_a", "s3_a_a3"),
       ("s4_a", "s4_a_a4")]⟩,
     ⟨["s1_a_b1", "s5_a_b5", "s6_a_b6", "s7_a_b7"], 1, 4, true,
      [("s5_a", "s5_a_b5"), ("s6_a", "s6_a_b6"), ("s7_a", "s7_a_b7")]⟩] 1
    ⟨["s1_a_b1", "s5_a_b5", "s6_a_b6", "s7_a_b7"], 1, 4, true,
     [("s5_a", "s5_a_b5"), ("s6_a", "s6_a_b6"), ("s7_a", "s7_a_b7")]⟩
    (by decide) (by decide)

theorem c5_outgroup_distance_invariant_witness :
    ∃ d, pickOutgroup dn0 (forestLeafNames [ETree.node "C" 1 []]) = some "C" ∧
      patristicToSister [ETree.node "C" 1 []] (ETree.node "A" 1 []) "C" = some d ∧
      (1 : ℚ) = d - (ETree.node "A" 1 []).dist ∧ (0 : ℚ) < 1 :=
  c5_outgroup_distance_invariant.1 dn0 [ETree.node "C" 1 []] (ETree.node "A" 1 [])
    "C" 1 (by norm_num [processOutgroup, pickOutgroup, patristicToSister, leafDepth,
      forestLeafDepth, forestLeafNames, leafNames, gapWeight, dn0, ETree.dist])

/-- C8: the returned profile count is `min(5, leaf_count)` summed over
exactly the boundary subtrees.  First conjunct: a tree within the target is
written as one subtree and `min(5, leaf_count)` is returned at once, with
no splitting and no outgroup processing (the result is the same for both
outgroup settings and cannot fail).  Second: every successful run returns
the boundary-wise sum.  Third: the concrete tree whose boundary subtrees
have leaf counts `[3, 7, 5]` yields `3 + 5 + 5 = 13`. -/
theorem c8_profile_count :
    (∀ (dngaps : String → ℕ) (nTaxa : ℕ) (q : Bool) (t : ETree),
      leafCount t ≤ nTaxa →
      splitTree dngaps nTaxa q t =
        .ok ⟨min 5 (leafCount t), [⟨leafNames t, leafCount t, none, none⟩], none⟩) ∧
    (∀ (dngaps : String → ℕ) (nTaxa : ℕ) (q : Bool) (t : ETree) (r : SplitResult),
      splitTree dngaps nTaxa q t = .ok r →
      r.profile = ((boundaries nTaxa t).map (fun b => min 5 (leafCount b))).sum) ∧
    ((splitMain dn0 7 true tree8).map Prod.fst = some 13 ∧
      (boundaries 7 tree8).map leafCount = [3, 7, 5]) := by
  refine ⟨?_, ?_, ?_, ?_⟩
  · intro dngaps nTaxa q t hle
    unfold splitTree
    rw [if_pos hle]
  · intro dngaps nTaxa q t r h
    exact (splitTree_ok_spec h).2.1
  · norm_num +decide [splitMain, splitTree, visitNode, visitChildren, processOutgroup,
      pickOutgroup, patristicToSister, leafDepth, forestLeafDepth, leafNames,
      forestLeafNames, leafCount, gapWeight, partName, tree8, dn0, ETree.dist,
      ETree.name, ETree.children, ETree.isLeafNode]
  · decide

theorem c8_profile_count_witness :
    splitTree dn1 5 false tree1 =
      .ok ⟨min 5 (leafCount tree1), [⟨leafNames tree1, leafCount tree1, none, none⟩],
           none⟩ :=
  c8_profile_count.1 dn1 5 false tree1 (by decide)

end Shoot
